import Mathlib

/-!
Verification development for the knowledge-graph-construction pipeline.

Shallow embedding of the TypeScript source: each TS function relevant to the
claims is translated into an executable Lean definition.  LLM responses and
other external inputs are passed as explicit arguments; the database is an
explicit state value; throwing async functions become `Except`-valued
functions.  JSON `Record<string, any>` payloads, which the pipeline never
inspects, are represented as association lists of strings.
-/

namespace KG

/-! ### String primitives

Executable models of the JS string operations the pipeline uses
(`toLowerCase`, `trim`, `String.includes`), written over character lists so
that concrete runs reduce inside the kernel. -/

/-- ASCII lowercasing of one character (JS `toLowerCase` on the pipeline's
ASCII identifiers). -/
def charLower (c : Char) : Char :=
  if 'A' ≤ c ∧ c ≤ 'Z' then Char.ofNat (c.toNat + 32) else c

/-- JS `String.prototype.toLowerCase`. -/
def jsToLower (s : String) : String := ⟨s.data.map charLower⟩

/-- Whitespace test used by `jsTrim`. -/
def wsp (c : Char) : Bool := c = ' ' || c = '\t' || c = '\n' || c = '\r'

/-- JS `String.prototype.trim`. -/
def jsTrim (s : String) : String :=
  ⟨((s.data.dropWhile wsp).reverse.dropWhile wsp).reverse⟩

/-- Substring search on character lists. -/
def listContainsSub (pat : List Char) : List Char → Bool
  | [] => pat.isEmpty
  | c :: rest => pat.isPrefixOf (c :: rest) || listContainsSub pat rest

/-- JS `String.prototype.includes`. -/
def strContains (s pat : String) : Bool := listContainsSub pat.data s.data

/-- Entity, from `src/types/domain.ts`. -/
structure Entity where
  id : String
  name : String
  type : String
  description : Option String := none
  aliases : Option (List String) := none
  metadata : Option (List (String × String)) := none
deriving DecidableEq

/-- Relationship, from `src/types/domain.ts`. -/
structure Relationship where
  sourceId : String
  targetId : String
  type : String
  description : Option String := none
  confidence : Option Rat := none
  sourcePaperId : Option String := none
  metadata : Option (List (String × String)) := none
deriving DecidableEq

/-- GraphData, from `src/types/domain.ts`.  `referencedEntityIds` is the
optional list of store ids referenced by relationships but absent from
`entities`. -/
structure GraphData where
  entities : List Entity
  relationships : List Relationship
  referencedEntityIds : Option (List String) := none
deriving DecidableEq

/-! ### Association-list model of a JS `Map`

JS `Map` iterates in key-insertion order; `set` on an existing key replaces
the value in place, `set` on a fresh key appends. -/

/-- First-match lookup in an association list (JS `Map.get`). -/
def lookupA : List (String × α) → String → Option α
  | [], _ => none
  | p :: rest, k => if p.1 = k then some p.2 else lookupA rest k

/-- JS `Map.set`: replace in place when the key is present, append otherwise. -/
def mapSet (m : List (String × α)) (k : String) (v : α) : List (String × α) :=
  if (lookupA m k).isSome then
    m.map (fun p => if p.1 = k then (k, v) else p)
  else m ++ [(k, v)]

theorem lookupA_append_of_none (m₁ m₂ : List (String × α)) (k : String)
    (h : lookupA m₁ k = none) : lookupA (m₁ ++ m₂) k = lookupA m₂ k := by
  induction m₁ with
  | nil => rfl
  | cons p rest ih =>
    by_cases hp : p.1 = k
    · simp [lookupA, hp] at h
    · simp only [lookupA, hp, if_false] at h
      simpa [lookupA, hp] using ih h

theorem lookupA_append_of_some (m₁ m₂ : List (String × α)) (k : String) (v : α)
    (h : lookupA m₁ k = some v) : lookupA (m₁ ++ m₂) k = some v := by
  induction m₁ with
  | nil => simp [lookupA] at h
  | cons p rest ih =>
    by_cases hp : p.1 = k
    · simp only [lookupA, hp, if_true] at h
      simpa [lookupA, hp] using h
    · simp only [lookupA, hp, if_false] at h
      simpa [lookupA, hp] using ih h

theorem lookupA_mapUpdate_self (m : List (String × α)) (k : String) (v : α)
    (h : (lookupA m k).isSome) :
    lookupA (m.map (fun p => if p.1 = k then (k, v) else p)) k = some v := by
  induction m with
  | nil => simp [lookupA] at h
  | cons p rest ih =>
    by_cases hp : p.1 = k
    · simp [lookupA, hp]
    · simp only [lookupA, hp, if_false] at h
      simp [lookupA, hp, ih h]

theorem lookupA_mapUpdate_ne (m : List (String × α)) (k k' : String) (v : α)
    (h : k' ≠ k) :
    lookupA (m.map (fun p => if p.1 = k then (k, v) else p)) k' = lookupA m k' := by
  induction m with
  | nil => rfl
  | cons p rest ih =>
    by_cases hp : p.1 = k
    · have h1 : ¬ (k = k') := fun he => h he.symm
      have h2 : ¬ (p.1 = k') := by rw [hp]; exact h1
      simp [lookupA, hp, h1, h2, ih]
    · have h1 : ¬ (k' = k) := h
      by_cases hq : p.1 = k' <;> simp [lookupA, hp, hq, h1, ih]

theorem lookupA_mapSet_self (m : List (String × α)) (k : String) (v : α) :
    lookupA (mapSet m k v) k = some v := by
  unfold mapSet
  split
  · exact lookupA_mapUpdate_self m k v (by assumption)
  · next h =>
    have hn : lookupA m k = none := Option.not_isSome_iff_eq_none.mp h
    rw [lookupA_append_of_none m _ k hn]
    simp [lookupA]

theorem lookupA_mapSet_ne (m : List (String × α)) (k k' : String) (v : α)
    (h : k' ≠ k) : lookupA (mapSet m k v) k' = lookupA m k' := by
  unfold mapSet
  split
  · exact lookupA_mapUpdate_ne m k k' v h
  · cases hm : lookupA m k' with
    | some w => exact lookupA_append_of_some m _ k' w hm
    | none =>
      rw [lookupA_append_of_none m _ k' hm]
      have h1 : ¬ (k = k') := fun he => h he.symm
      simp [lookupA, h1, hm]

/-- Membership of entries after `mapSet`: each entry either was present before
or is the newly written pair. -/
theorem mem_mapSet (m : List (String × α)) (k : String) (v : α) (p : String × α)
    (hp : p ∈ mapSet m k v) : p ∈ m ∨ p = (k, v) := by
  unfold mapSet at hp
  split at hp
  · simp only [List.mem_map] at hp
    obtain ⟨q, hq, hqe⟩ := hp
    by_cases h1 : q.1 = k
    · right; simp [h1] at hqe; exact hqe.symm
    · left; simp [h1] at hqe; exact hqe ▸ hq
  · simp only [List.mem_append, List.mem_singleton] at hp
    exact hp

/-- Lemma: `mapSet` preserves definedness of lookups. -/
theorem lookupA_mapSet_isSome (m : List (String × α)) (k k' : String) (v : α)
    (h : (lookupA m k').isSome) : (lookupA (mapSet m k v) k').isSome := by
  by_cases he : k' = k
  · subst he; simp [lookupA_mapSet_self]
  · rw [lookupA_mapSet_ne m k k' v he]; exact h

/-! ### Canonicalizer, from `src/pipeline/canonicalize/index.ts` -/

/-- Mutable state of `Canonicalizer.process`: `uniqueEntities` keyed by
lowercased name, and `idRemap` (old id → kept id). -/
structure CanonState where
  uniqueByName : List (String × Entity)
  idRemap : List (String × String)

/-- One iteration of the dedup loop: skip empty names; on a seen key record a
remap to the kept entity's id, otherwise keep this entity under its key. -/
def canonStep (st : CanonState) (e : Entity) : CanonState :=
  if e.name = "" then st
  else
    match lookupA st.uniqueByName (jsToLower e.name) with
    | some existing => { st with idRemap := mapSet st.idRemap e.id existing.id }
    | none => { st with uniqueByName := st.uniqueByName ++ [(jsToLower e.name, e)] }

/-- JS `idRemap.get(x) || x`: the fallback also fires when the mapped value is
the empty string (falsy). -/
def jsOrElse (m : List (String × String)) (i : String) : String :=
  match lookupA m i with
  | some v => if v = "" then i else v
  | none => i

/-- The function `Canonicalizer.process`: dedup by lowercased name, rewrite relationship
endpoints through `idRemap`, drop self-loops.  The returned fragment carries no
`referencedEntityIds`. -/
def canonicalizeProcess (g : GraphData) : GraphData :=
  let st := g.entities.foldl canonStep ⟨[], []⟩
  let resolvedEntities := st.uniqueByName.map (·.2)
  let resolvedRelationships :=
    (g.relationships.map (fun r =>
      { r with sourceId := jsOrElse st.idRemap r.sourceId,
               targetId := jsOrElse st.idRemap r.targetId })).filter
      (fun r => decide (r.sourceId ≠ r.targetId))
  { entities := resolvedEntities, relationships := resolvedRelationships }

/-! ### Canonicalizer loop invariants -/

theorem lookupA_some_mem (m : List (String × α)) (k : String) (v : α)
    (h : lookupA m k = some v) : (k, v) ∈ m := by
  induction m with
  | nil => simp [lookupA] at h
  | cons p rest ih =>
    by_cases hp : p.1 = k
    · simp only [lookupA, hp, if_true, Option.some.injEq] at h
      have hpe : p = (k, v) := by cases p; simp_all
      rw [← hpe]
      exact List.mem_cons_self _ _
    · simp only [lookupA, hp, if_false] at h
      exact List.mem_cons_of_mem _ (ih h)

theorem lookupA_none_keys (m : List (String × α)) (k : String)
    (h : lookupA m k = none) : ∀ p ∈ m, p.1 ≠ k := by
  induction m with
  | nil => intro p hp; simp at hp
  | cons p rest ih =>
    by_cases hp : p.1 = k
    · simp [lookupA, hp] at h
    · simp only [lookupA, hp, if_false] at h
      intro q hq
      rcases List.mem_cons.mp hq with h1 | h1
      · subst h1; exact hp
      · exact ih h q h1

/-- Invariant carried through the dedup loop: every kept pair stores an
allowed entity under its lowercased-name key (non-empty name), kept keys are
distinct, and every remap target is the id of a kept entity. -/
def CanonInv (ok : Entity → Prop) (st : CanonState) : Prop :=
  (∀ p ∈ st.uniqueByName, ok p.2 ∧ p.1 = jsToLower p.2.name ∧ p.2.name ≠ "") ∧
  (st.uniqueByName.map (·.1)).Nodup ∧
  (∀ q ∈ st.idRemap, ∃ p ∈ st.uniqueByName, q.2 = p.2.id)

theorem canonStep_inv {ok : Entity → Prop} {st : CanonState} {e : Entity}
    (hok : ok e) (h : CanonInv ok st) : CanonInv ok (canonStep st e) := by
  obtain ⟨h1, h2, h3⟩ := h
  unfold canonStep
  by_cases hname : e.name = ""
  · simpa [hname] using ⟨h1, h2, h3⟩
  · simp only [hname, if_false]
    cases hl : lookupA st.uniqueByName (jsToLower e.name) with
    | some existing =>
      refine ⟨h1, h2, ?_⟩
      intro q hq
      rcases mem_mapSet _ _ _ _ hq with hmem | heq
      · exact h3 q hmem
      · subst heq
        exact ⟨(jsToLower e.name, existing), lookupA_some_mem _ _ _ hl, rfl⟩
    | none =>
      refine ⟨?_, ?_, ?_⟩
      · intro p hp
        rcases List.mem_append.mp hp with hmem | hmem
        · exact h1 p hmem
        · rcases List.mem_singleton.mp hmem with rfl
          exact ⟨hok, rfl, hname⟩
      · rw [List.map_append, List.nodup_append]
        refine ⟨h2, List.nodup_singleton _, ?_⟩
        intro a ha hb
        simp only [List.map_cons, List.map_nil, List.mem_singleton] at hb
        subst hb
        obtain ⟨p, hp, hpk⟩ := List.mem_map.mp ha
        exact lookupA_none_keys _ _ hl p hp hpk
      · intro q hq
        obtain ⟨p, hp, hpe⟩ := h3 q hq
        exact ⟨p, List.mem_append_left _ hp, hpe⟩

theorem canonFold_inv {ok : Entity → Prop} (es : List Entity) (st : CanonState)
    (hok : ∀ e ∈ es, ok e) (h : CanonInv ok st) :
    CanonInv ok (es.foldl canonStep st) := by
  induction es generalizing st with
  | nil => exact h
  | cons a es ih =>
    exact ih _ (fun e he => hok e (List.mem_cons_of_mem _ he))
      (canonStep_inv (hok a (List.mem_cons_self _ _)) h)

/-- Resolution property of an id at a loop state: either a remap entry exists
for it or it is already the id of a kept entity. -/
def CanonSeen (st : CanonState) (i : String) : Prop :=
  (lookupA st.idRemap i).isSome = true ∨ i ∈ st.uniqueByName.map (·.2.id)

theorem canonStep_seen_mono {st : CanonState} {e : Entity} {i : String}
    (h : CanonSeen st i) : CanonSeen (canonStep st e) i := by
  unfold canonStep
  by_cases hname : e.name = ""
  · simpa [hname]
  · simp only [hname, if_false]
    cases hl : lookupA st.uniqueByName (jsToLower e.name) with
    | some existing =>
      rcases h with h | h
      · exact Or.inl (lookupA_mapSet_isSome _ _ _ _ h)
      · exact Or.inr h
    | none =>
      rcases h with h | h
      · exact Or.inl h
      · exact Or.inr (by simpa using Or.inl h)

theorem canonStep_seen_self {st : CanonState} {e : Entity}
    (hname : e.name ≠ "") : CanonSeen (canonStep st e) e.id := by
  unfold canonStep
  simp only [hname, if_false]
  cases hl : lookupA st.uniqueByName (jsToLower e.name) with
  | some existing =>
    exact Or.inl (by simp [lookupA_mapSet_self])
  | none =>
    exact Or.inr (by simp)

theorem canonFold_seen_mono (es : List Entity) (st : CanonState) (i : String)
    (h : CanonSeen st i) : CanonSeen (es.foldl canonStep st) i := by
  induction es generalizing st with
  | nil => exact h
  | cons a es ih => exact ih _ (canonStep_seen_mono h)

theorem canonFold_seen (es : List Entity) (st : CanonState) (e : Entity)
    (he : e ∈ es) (hname : e.name ≠ "") :
    CanonSeen (es.foldl canonStep st) e.id := by
  induction es generalizing st with
  | nil => simp at he
  | cons a es ih =>
    rcases List.mem_cons.mp he with rfl | hmem
    · exact canonFold_seen_mono es _ _ (canonStep_seen_self hname)
    · exact ih _ hmem

theorem lookupA_eq_none_of_keys (m : List (String × α)) (k : String)
    (h : ∀ p ∈ m, p.1 ≠ k) : lookupA m k = none := by
  induction m with
  | nil => rfl
  | cons p rest ih =>
    have hp : ¬ (p.1 = k) := h p (List.mem_cons_self _ _)
    simp only [lookupA, hp, if_false]
    exact ih (fun q hq => h q (List.mem_cons_of_mem _ hq))

theorem canonStep_uniq_mono {st : CanonState} {e : Entity} {p : String × Entity}
    (hp : p ∈ st.uniqueByName) : p ∈ (canonStep st e).uniqueByName := by
  unfold canonStep
  by_cases hname : e.name = ""
  · simpa [hname] using hp
  · simp only [hname, if_false]
    cases lookupA st.uniqueByName (jsToLower e.name) with
    | some existing => exact hp
    | none => exact List.mem_append_left _ hp

theorem canonFold_uniq_mono (es : List Entity) (st : CanonState)
    (p : String × Entity) (hp : p ∈ st.uniqueByName) :
    p ∈ (es.foldl canonStep st).uniqueByName := by
  induction es generalizing st with
  | nil => exact hp
  | cons a es ih => exact ih _ (canonStep_uniq_mono hp)

theorem canonStep_uniq_lookup {st : CanonState} {e : Entity} {k : String}
    {v : Entity} (h : lookupA st.uniqueByName k = some v) :
    lookupA (canonStep st e).uniqueByName k = some v := by
  unfold canonStep
  by_cases hname : e.name = ""
  · simpa [hname] using h
  · simp only [hname, if_false]
    cases lookupA st.uniqueByName (jsToLower e.name) with
    | some existing => exact h
    | none => exact lookupA_append_of_some _ _ _ _ h

theorem canonFold_uniq_lookup (es : List Entity) (st : CanonState)
    (k : String) (v : Entity) (h : lookupA st.uniqueByName k = some v) :
    lookupA (es.foldl canonStep st).uniqueByName k = some v := by
  induction es generalizing st with
  | nil => exact h
  | cons a es ih => exact ih _ (canonStep_uniq_lookup h)

theorem canonStep_key_isSome {st : CanonState} {e : Entity}
    (hname : e.name ≠ "") :
    ((lookupA (canonStep st e).uniqueByName (jsToLower e.name)).isSome) = true := by
  unfold canonStep
  simp only [hname, if_false]
  cases hl : lookupA st.uniqueByName (jsToLower e.name) with
  | some existing => simp [hl]
  | none =>
    rw [lookupA_append_of_none _ _ _ hl]
    simp [lookupA]

theorem canonStep_key_isSome_mono {st : CanonState} {e : Entity} {k : String}
    (h : ((lookupA st.uniqueByName k).isSome) = true) :
    ((lookupA (canonStep st e).uniqueByName k).isSome) = true := by
  obtain ⟨v, hv⟩ := Option.isSome_iff_exists.mp h
  rw [canonStep_uniq_lookup hv]
  rfl

theorem canonFold_key_isSome_mono (es : List Entity) (st : CanonState)
    (k : String) (h : ((lookupA st.uniqueByName k).isSome) = true) :
    ((lookupA (es.foldl canonStep st).uniqueByName k).isSome) = true := by
  induction es generalizing st with
  | nil => exact h
  | cons a es ih => exact ih _ (canonStep_key_isSome_mono h)

theorem canonFold_key_isSome (es : List Entity) (st : CanonState) (e : Entity)
    (he : e ∈ es) (hname : e.name ≠ "") :
    ((lookupA (es.foldl canonStep st).uniqueByName (jsToLower e.name)).isSome)
      = true := by
  induction es generalizing st with
  | nil => simp at he
  | cons a es ih =>
    rcases List.mem_cons.mp he with rfl | hmem
    · exact canonFold_key_isSome_mono es _ _ (canonStep_key_isSome hname)
    · exact ih _ hmem

theorem canonStep_remap_frame {st : CanonState} {a : Entity} {i : String}
    (hne : a.id ≠ i) :
    lookupA (canonStep st a).idRemap i = lookupA st.idRemap i := by
  unfold canonStep
  by_cases hname : a.name = ""
  · simp [hname]
  · simp only [hname, if_false]
    cases lookupA st.uniqueByName (jsToLower a.name) with
    | some existing => exact lookupA_mapSet_ne _ _ _ _ (fun h => hne h.symm)
    | none => rfl

theorem canonFold_remap_frame (es : List Entity) (st : CanonState) (i : String)
    (h : ∀ a ∈ es, a.id ≠ i) :
    lookupA (es.foldl canonStep st).idRemap i = lookupA st.idRemap i := by
  induction es generalizing st with
  | nil => rfl
  | cons a es ih =>
    rw [List.foldl_cons, ih _ (fun b hb => h b (List.mem_cons_of_mem _ hb)),
      canonStep_remap_frame (h a (List.mem_cons_self _ _))]

theorem canonStep_remap_dom {ok : Entity → Prop} {st : CanonState} {e : Entity}
    (hok : ok e)
    (h : ∀ q ∈ st.idRemap, ∃ a, ok a ∧ q.1 = a.id) :
    ∀ q ∈ (canonStep st e).idRemap, ∃ a, ok a ∧ q.1 = a.id := by
  unfold canonStep
  by_cases hname : e.name = ""
  · simpa [hname] using h
  · simp only [hname, if_false]
    cases lookupA st.uniqueByName (jsToLower e.name) with
    | some existing =>
      intro q hq
      rcases mem_mapSet _ _ _ _ hq with hmem | heq
      · exact h q hmem
      · subst heq
        exact ⟨e, hok, rfl⟩
    | none => exact h

theorem canonFold_remap_dom {ok : Entity → Prop} (es : List Entity)
    (st : CanonState) (hok : ∀ e ∈ es, ok e)
    (h : ∀ q ∈ st.idRemap, ∃ a, ok a ∧ q.1 = a.id) :
    ∀ q ∈ (es.foldl canonStep st).idRemap, ∃ a, ok a ∧ q.1 = a.id := by
  induction es generalizing st with
  | nil => exact h
  | cons a es ih =>
    exact ih _ (fun e he => hok e (List.mem_cons_of_mem _ he))
      (canonStep_remap_dom (hok a (List.mem_cons_self _ _)) h)

theorem canonStep_of_fresh {st : CanonState} {e : Entity}
    (hname : e.name ≠ "")
    (h : lookupA st.uniqueByName (jsToLower e.name) = none) :
    canonStep st e =
      { st with uniqueByName := st.uniqueByName ++ [(jsToLower e.name, e)] } := by
  unfold canonStep
  rw [if_neg hname, h]

theorem canonStep_of_dup {st : CanonState} {e k : Entity}
    (hname : e.name ≠ "")
    (h : lookupA st.uniqueByName (jsToLower e.name) = some k) :
    canonStep st e = { st with idRemap := mapSet st.idRemap e.id k.id } := by
  unfold canonStep
  rw [if_neg hname, h]

/-- C5 (amended): `Canonicalizer.process` keys entities by `lowercase(name)`
with no trimming.  (1) The output has at most one entity per lowercased-name
key; (2) every output entity is an input entity with non-empty name (empty
names are skipped); (3) the first entity in iteration order with a given key
(ignoring skipped empty-named entities) is kept in the output; (4) every
later entity with an already-seen key is dropped into `idRemap`, which maps
its id to the kept entity of that key — provided no later entity reuses the
same id (JS `Map.set` would overwrite the record). -/
theorem canonicalize_dedup_by_lowercased_name (g : GraphData) :
    ((canonicalizeProcess g).entities.map (fun e => jsToLower e.name)).Nodup ∧
    (∀ e ∈ (canonicalizeProcess g).entities, e ∈ g.entities ∧ e.name ≠ "") ∧
    (∀ pre e post, g.entities = pre ++ e :: post → e.name ≠ "" →
      (∀ a ∈ pre, a.name ≠ "" → jsToLower a.name ≠ jsToLower e.name) →
      e ∈ (canonicalizeProcess g).entities) ∧
    (∀ pre e post, g.entities = pre ++ e :: post → e.name ≠ "" →
      (∃ a ∈ pre, a.name ≠ "" ∧ jsToLower a.name = jsToLower e.name) →
      (∀ b ∈ post, b.id ≠ e.id) →
      ∃ k, lookupA (g.entities.foldl canonStep ⟨[], []⟩).uniqueByName
          (jsToLower e.name) = some k ∧
        k ∈ (canonicalizeProcess g).entities ∧
        lookupA (g.entities.foldl canonStep ⟨[], []⟩).idRemap e.id =
          some k.id) := by
  have hinv : CanonInv (· ∈ g.entities) (g.entities.foldl canonStep ⟨[], []⟩) :=
    canonFold_inv _ _ (fun _ he => he) ⟨by simp, by simp, by simp⟩
  obtain ⟨h1, h2, _⟩ := hinv
  refine ⟨?_, ?_, ?_, ?_⟩
  · simp only [canonicalizeProcess]
    rw [List.map_map]
    have hmeq :
        (g.entities.foldl canonStep ⟨[], []⟩).uniqueByName.map
            ((fun e => jsToLower e.name) ∘ (·.2)) =
          (g.entities.foldl canonStep ⟨[], []⟩).uniqueByName.map (·.1) :=
      List.map_congr_left (fun p hp => ((h1 p hp).2.1).symm)
    rw [hmeq]
    exact h2
  · intro e he
    simp only [canonicalizeProcess] at he
    obtain ⟨p, hp, hpe⟩ := List.mem_map.mp he
    have hq := h1 p hp
    exact ⟨hpe ▸ hq.1, hpe ▸ hq.2.2⟩
  · intro pre e post hsplit hname hfresh
    have hinv1 : CanonInv (· ∈ pre) (pre.foldl canonStep ⟨[], []⟩) :=
      canonFold_inv _ _ (fun _ h => h) ⟨by simp, by simp, by simp⟩
    have hnone : lookupA (pre.foldl canonStep ⟨[], []⟩).uniqueByName
        (jsToLower e.name) = none := by
      apply lookupA_eq_none_of_keys
      intro p hp
      obtain ⟨hmem, hkey, hnm⟩ := hinv1.1 p hp
      rw [hkey]
      exact hfresh p.2 hmem hnm
    have hstep : (jsToLower e.name, e) ∈
        (canonStep (pre.foldl canonStep ⟨[], []⟩) e).uniqueByName := by
      rw [canonStep_of_fresh hname hnone]
      exact List.mem_append_right _ (List.mem_singleton_self _)
    have hfin : (jsToLower e.name, e) ∈
        (g.entities.foldl canonStep ⟨[], []⟩).uniqueByName := by
      rw [hsplit, List.foldl_append, List.foldl_cons]
      exact canonFold_uniq_mono post _ _ hstep
    simp only [canonicalizeProcess]
    exact List.mem_map.mpr ⟨(jsToLower e.name, e), hfin, rfl⟩
  · intro pre e post hsplit hname hdup hpost
    obtain ⟨a, ha, hanm, hakey⟩ := hdup
    have hsome1 : ((lookupA (pre.foldl canonStep ⟨[], []⟩).uniqueByName
        (jsToLower e.name)).isSome) = true := by
      rw [← hakey]
      exact canonFold_key_isSome pre _ a ha hanm
    obtain ⟨k, hk⟩ := Option.isSome_iff_exists.mp hsome1
    have hstep_remap : lookupA
        (canonStep (pre.foldl canonStep ⟨[], []⟩) e).idRemap e.id =
        some k.id := by
      rw [canonStep_of_dup hname hk]
      exact lookupA_mapSet_self _ _ _
    have hstep_uniq : lookupA
        (canonStep (pre.foldl canonStep ⟨[], []⟩) e).uniqueByName
        (jsToLower e.name) = some k := by
      rw [canonStep_of_dup hname hk]
      exact hk
    have hfin_uniq : lookupA
        (g.entities.foldl canonStep ⟨[], []⟩).uniqueByName
        (jsToLower e.name) = some k := by
      rw [hsplit, List.foldl_append, List.foldl_cons]
      exact canonFold_uniq_lookup post _ _ _ hstep_uniq
    have hfin_remap : lookupA
        (g.entities.foldl canonStep ⟨[], []⟩).idRemap e.id = some k.id := by
      rw [hsplit, List.foldl_append, List.foldl_cons,
        canonFold_remap_frame post _ _ (fun b hb => hpost b hb)]
      exact hstep_remap
    refine ⟨k, hfin_uniq, ?_, hfin_remap⟩
    simp only [canonicalizeProcess]
    exact List.mem_map.mpr
      ⟨(jsToLower e.name, k), lookupA_some_mem _ _ _ hfin_uniq, rfl⟩

/-- Input with two entities whose names agree after trimming but not before:
the code (which does not trim) keeps both. -/
def gTrimEx : GraphData :=
  { entities := [{ id := "a", name := "x", type := "T" },
                 { id := "b", name := "x ", type := "T" }],
    relationships := [] }

/-- C5 counterexample: the two entities of `gTrimEx` share the claimed key
`lowercase(trim(name))`, yet both survive canonicalization, so the output does
not have at most one entity per trimmed-lowercased key and the second entity
is not dropped into `idRemap`. -/
theorem canonicalize_trim_key_counterexample :
    jsToLower (jsTrim "x ") = jsToLower (jsTrim "x") ∧
    ¬ ((canonicalizeProcess gTrimEx).entities.map
        (fun e => jsToLower (jsTrim e.name))).Nodup ∧
    (canonicalizeProcess gTrimEx).entities.length = 2 := by
  refine ⟨by decide, by decide, by decide⟩

/-- First entity of the C5 witness fragment (kept: fresh key `"x"`). -/
def eC5A : Entity := { id := "a", name := "X", type := "T" }

/-- Second entity of the C5 witness fragment (dropped: duplicate key `"x"`). -/
def eC5B : Entity := { id := "b", name := "x", type := "T" }

/-- Third entity of the C5 witness fragment (kept: fresh key `"y"`). -/
def eC5C : Entity := { id := "c", name := "Y", type := "T" }

/-- Fragment for the C5 witness. -/
def gC5W : GraphData :=
  { entities := [eC5A, eC5B, eC5C], relationships := [] }

/-- C5 witness: `canonicalize_dedup_by_lowercased_name` applied to `gC5W`:
the first entity with key `"x"` is kept and the later duplicate is recorded
in `idRemap` as mapping to the kept entity's id. -/
theorem canonicalize_dedup_by_lowercased_name_witness :
    gC5W.entities = [] ++ eC5A :: [eC5B, eC5C] ∧
    gC5W.entities = [eC5A] ++ eC5B :: [eC5C] ∧
    eC5A ∈ (canonicalizeProcess gC5W).entities ∧
    (∃ k, lookupA (gC5W.entities.foldl canonStep ⟨[], []⟩).uniqueByName
        (jsToLower eC5B.name) = some k ∧
      k ∈ (canonicalizeProcess gC5W).entities ∧
      lookupA (gC5W.entities.foldl canonStep ⟨[], []⟩).idRemap eC5B.id =
        some k.id) := by
  obtain ⟨_, _, h3, h4⟩ := canonicalize_dedup_by_lowercased_name gC5W
  refine ⟨rfl, rfl, ?_, ?_⟩
  · exact h3 [] eC5A [eC5B, eC5C] rfl (by decide)
      (fun a ha _ => absurd ha (List.not_mem_nil a))
  · exact h4 [eC5A] eC5B [eC5C] rfl (by decide) (by decide) (by decide)

/-- C6 (amended): for every fragment whose entity ids are non-empty (so the
JS `||` fallback never fires on a remap target): (1) substitution through
`idRemap` sends every id of a non-empty-named input entity to the id of a
resolved output entity; (2) an id that belongs to no input entity passes
through the substitution unchanged; (3) every output relationship's endpoints
are exactly the substituted endpoints of some input relationship — so on a
mixed relationship the internal endpoint lands in the resolved id set while
the external endpoint is passed through. -/
theorem canonicalize_endpoints_in_resolved (g : GraphData)
    (hid : ∀ e ∈ g.entities, e.id ≠ "") :
    (∀ i, (∃ e ∈ g.entities, e.name ≠ "" ∧ e.id = i) →
      jsOrElse (g.entities.foldl canonStep ⟨[], []⟩).idRemap i ∈
        (canonicalizeProcess g).entities.map (·.id)) ∧
    (∀ i, (∀ e ∈ g.entities, e.id ≠ i) →
      jsOrElse (g.entities.foldl canonStep ⟨[], []⟩).idRemap i = i) ∧
    (∀ r' ∈ (canonicalizeProcess g).relationships, ∃ r ∈ g.relationships,
      r'.sourceId =
        jsOrElse (g.entities.foldl canonStep ⟨[], []⟩).idRemap r.sourceId ∧
      r'.targetId =
        jsOrElse (g.entities.foldl canonStep ⟨[], []⟩).idRemap r.targetId) := by
  have hinv : CanonInv (· ∈ g.entities) (g.entities.foldl canonStep ⟨[], []⟩) :=
    canonFold_inv _ _ (fun _ he => he) ⟨by simp, by simp, by simp⟩
  obtain ⟨h1, _, h3⟩ := hinv
  refine ⟨?_, ?_, ?_⟩
  · rintro i ⟨e, he, hne, hei⟩
    have hseen : CanonSeen (g.entities.foldl canonStep ⟨[], []⟩) i :=
      hei ▸ canonFold_seen _ _ e he hne
    have hmem : jsOrElse (g.entities.foldl canonStep ⟨[], []⟩).idRemap i ∈
        (g.entities.foldl canonStep ⟨[], []⟩).uniqueByName.map (·.2.id) := by
      unfold jsOrElse
      cases hl : lookupA (g.entities.foldl canonStep ⟨[], []⟩).idRemap i with
      | some v =>
        obtain ⟨p, hp, hpe⟩ := h3 (i, v) (lookupA_some_mem _ _ _ hl)
        have hpe' : v = p.2.id := hpe
        have hvne : v ≠ "" := by
          rw [hpe']
          exact hid p.2 (h1 p hp).1
        simp only [hvne, if_false]
        rw [hpe']
        exact List.mem_map.mpr ⟨p, hp, rfl⟩
      | none =>
        rcases hseen with hs | hs
        · rw [hl] at hs
          simp at hs
        · simpa using hs
    simpa [canonicalizeProcess, List.map_map] using hmem
  · intro i hno
    have hdom : ∀ q ∈ (g.entities.foldl canonStep ⟨[], []⟩).idRemap,
        ∃ a, a ∈ g.entities ∧ q.1 = a.id :=
      canonFold_remap_dom g.entities _ (fun _ he => he) (by simp)
    unfold jsOrElse
    cases hl : lookupA (g.entities.foldl canonStep ⟨[], []⟩).idRemap i with
    | some v =>
      obtain ⟨a, ha, hqa⟩ := hdom (i, v) (lookupA_some_mem _ _ _ hl)
      have hqa' : i = a.id := hqa
      exact absurd hqa'.symm (hno a ha)
    | none => rfl
  · intro r' hr'
    simp only [canonicalizeProcess, List.mem_filter, List.mem_map] at hr'
    obtain ⟨⟨r, hr, hre⟩, _⟩ := hr'
    refine ⟨r, hr, ?_, ?_⟩
    · rw [← hre]
    · rw [← hre]

/-- Input whose relationship references an id that is not the id of any
entity in the fragment. -/
def gExtEx : GraphData :=
  { entities := [{ id := "a", name := "X", type := "T" },
                 { id := "b", name := "x", type := "T" }],
    relationships := [{ sourceId := "b", targetId := "c", type := "uses" }] }

/-- C6 counterexample: on `gExtEx` the rewritten relationship is `("a", "c")`
but `"c"` is not the id of any resolved entity, so the claimed endpoint
inclusion fails. -/
theorem canonicalize_external_endpoint_counterexample :
    ¬ (∀ r ∈ (canonicalizeProcess gExtEx).relationships,
        r.sourceId ∈ (canonicalizeProcess gExtEx).entities.map (·.id) ∧
        r.targetId ∈ (canonicalizeProcess gExtEx).entities.map (·.id)) := by
  decide

/-- C6 witness: `canonicalize_endpoints_in_resolved` on `gExtEx`, the spec's
mixed scenario-3 graph: the internal endpoint `"b"` remaps into the resolved
id set while the external endpoint `"c"` passes through unchanged. -/
theorem canonicalize_endpoints_in_resolved_witness :
    (∀ e ∈ gExtEx.entities, e.id ≠ "") ∧
    (∃ e ∈ gExtEx.entities, e.name ≠ "" ∧ e.id = "b") ∧
    jsOrElse (gExtEx.entities.foldl canonStep ⟨[], []⟩).idRemap "b" ∈
      (canonicalizeProcess gExtEx).entities.map (·.id) ∧
    (∀ e ∈ gExtEx.entities, e.id ≠ "c") ∧
    jsOrElse (gExtEx.entities.foldl canonStep ⟨[], []⟩).idRemap "c" = "c" := by
  refine ⟨by decide, by decide, ?_, by decide, ?_⟩
  · exact (canonicalize_endpoints_in_resolved gExtEx (by decide)).1 "b"
      (by decide)
  · exact (canonicalize_endpoints_in_resolved gExtEx (by decide)).2.1 "c"
      (by decide)

/-! ### Drizzle graph store, from `src/storage/drizzleStore.ts` and
`src/storage/schema.ts`

The database is an explicit value.  `saveGraph` runs inside one transaction:
an `Except.error` models an exception aborting the transaction (the caller's
store is then unchanged, i.e. rolled back). -/

/-- Row of the `entities` table (the columns `saveGraph` writes). -/
structure EntityRow where
  id : String
  name : String
  type : String
  description : Option String
  metadata : Option (List (String × String))
  version : Nat
deriving DecidableEq

/-- Row of the `relationships` table (the columns `saveGraph` writes). -/
structure RelRow where
  sourceId : String
  targetId : String
  type : String
  description : Option String
  metadata : Option (List (String × String))
deriving DecidableEq

/-- The persistent store: the two tables `saveGraph` touches. -/
structure Store where
  entities : List EntityRow
  relationships : List RelRow
deriving DecidableEq

/-- Entity upsert, `insert ... onConflictDoUpdate` keyed on `entities.id`: a fresh id inserts
with `version = 1`; a conflicting id updates the mutable columns and sets
`version = version + 1`. -/
def upsertEntity (rows : List EntityRow) (e : Entity) : List EntityRow :=
  if rows.any (fun r => r.id == e.id) then
    rows.map (fun r =>
      if r.id == e.id then
        { id := e.id, name := e.name, type := e.type,
          description := e.description, metadata := e.metadata,
          version := r.version + 1 }
      else r)
  else
    rows ++ [{ id := e.id, name := e.name, type := e.type,
               description := e.description, metadata := e.metadata,
               version := 1 }]

/-- Relationship insert, `insert ... onConflictDoNothing` on `relationships`.  The schema's only
unique constraint is the random-uuid primary key, which never conflicts, so
the row is appended; the FOREIGN KEY constraints on `source_id` / `target_id`
abort the transaction when an endpoint has no entity row. -/
def insertRelationship (s : Store) (r : Relationship) : Except String Store :=
  if s.entities.any (fun row => row.id == r.sourceId) &&
     s.entities.any (fun row => row.id == r.targetId) then
    .ok { s with relationships := s.relationships ++
      [{ sourceId := r.sourceId, targetId := r.targetId, type := r.type,
         description := r.description, metadata := r.metadata }] }
  else .error "relationships violates foreign key constraint on entities(id)"

/-- The method `DrizzleGraphStore.saveGraph`: nothing happens on an empty entity list;
otherwise every entity is upserted and then every relationship is inserted,
inside one transaction.  The code performs no filtering of relationships
against the fragment's entity ids or `referencedEntityIds` — that field is
never read. -/
def saveGraph (s : Store) (g : GraphData) : Except String Store :=
  if g.entities.length > 0 then
    let s1 : Store := { s with entities := g.entities.foldl upsertEntity s.entities }
    g.relationships.foldlM insertRelationship s1
  else .ok s

/-- Version of the row holding id `i`, when present. -/
def versionOf (rows : List EntityRow) (i : String) : Option Nat :=
  (rows.find? (fun r => r.id == i)).map (·.version)

/-- C10: when the fragment's entity list is empty, `saveGraph` opens no
transaction and performs no writes: the store is returned unchanged and the
fragment's relationships and `referencedEntityIds` are discarded. -/
theorem saveGraph_empty_entities_noop (s : Store) (g : GraphData)
    (h : g.entities = []) : saveGraph s g = Except.ok s := by
  simp [saveGraph, h]

/-- A store with one entity row, used by the C10 witness. -/
def storeW : Store :=
  { entities := [{ id := "x", name := "N", type := "T", description := none,
                   metadata := none, version := 1 }],
    relationships := [] }

/-- A fragment with no entities but a non-empty relationship list and
`referencedEntityIds`. -/
def gNoEnt : GraphData :=
  { entities := [],
    relationships := [{ sourceId := "x", targetId := "y", type := "uses" }],
    referencedEntityIds := some ["x", "y"] }

/-- C10 witness: `saveGraph_empty_entities_noop` applied to `storeW` and
`gNoEnt`. -/
theorem saveGraph_empty_entities_noop_witness :
    gNoEnt.entities = [] ∧ gNoEnt.relationships ≠ [] ∧
    saveGraph storeW gNoEnt = Except.ok storeW :=
  ⟨rfl, by decide, saveGraph_empty_entities_noop storeW gNoEnt rfl⟩

/-- The orphan-relationship fragment of the spec's scenario 5: one entity
`a`, one relationship `a → b` where `b` is neither in the fragment nor in
`referencedEntityIds`. -/
def gOrphan : GraphData :=
  { entities := [{ id := "a", name := "A", type := "Concept" }],
    relationships := [{ sourceId := "a", targetId := "b", type := "uses" }],
    referencedEntityIds := some [] }

/-- C1: `saveGraph` performs no orphan filtering.  On the scenario-5 input the
orphan relationship is inserted as-is, the FOREIGN KEY on `target_id` fires,
and the whole call fails (rolling back the entity upsert) instead of dropping
the orphan with a warning. -/
theorem saveGraph_orphan_fails :
    saveGraph { entities := [], relationships := [] } gOrphan =
      Except.error "relationships violates foreign key constraint on entities(id)" := by
  rfl

/-! ### Entity-version bookkeeping of `saveGraph` -/

theorem versionOf_upsert_self (rows : List EntityRow) (e : Entity) :
    versionOf (upsertEntity rows e) e.id =
      some ((versionOf rows e.id).getD 0 + 1) := by
  unfold upsertEntity
  by_cases h : rows.any (fun r => r.id == e.id) = true
  · rw [if_pos h]
    induction rows with
    | nil => simp at h
    | cons r rest ih =>
      by_cases hr : r.id = e.id
      · have hr' : (r.id == e.id) = true := beq_iff_eq.mpr hr
        simp [versionOf, List.find?, hr']
      · have hr' : (r.id == e.id) = false := beq_eq_false_iff_ne.mpr hr
        simp only [List.any_cons, hr', Bool.false_or] at h
        simpa [versionOf, List.find?, hr'] using ih h
  · rw [Bool.not_eq_true] at h
    rw [if_neg (by simp [h])]
    induction rows with
    | nil => simp [versionOf, List.find?]
    | cons r rest ih =>
      simp only [List.any_cons, Bool.or_eq_false_iff] at h
      simpa [versionOf, List.find?, h.1] using ih h.2

theorem versionOf_upsert_ne (rows : List EntityRow) (e : Entity) (i : String)
    (hne : i ≠ e.id) :
    versionOf (upsertEntity rows e) i = versionOf rows i := by
  unfold upsertEntity
  by_cases h : rows.any (fun r => r.id == e.id) = true
  · rw [if_pos h]
    clear h
    induction rows with
    | nil => rfl
    | cons r rest ih =>
      by_cases hr : r.id = e.id
      · have hr' : (r.id == e.id) = true := beq_iff_eq.mpr hr
        have h1 : (e.id == i) = false := beq_eq_false_iff_ne.mpr (fun he => hne he.symm)
        have h2 : (r.id == i) = false := by
          rw [hr]; exact h1
        simpa [versionOf, List.find?, hr', h1, h2] using ih
      · have hr' : (r.id == e.id) = false := beq_eq_false_iff_ne.mpr hr
        by_cases hq : r.id = i
        · have hq' : (r.id == i) = true := beq_iff_eq.mpr hq
          simp [versionOf, List.find?, hr', hq']
        · have hq' : (r.id == i) = false := beq_eq_false_iff_ne.mpr hq
          simpa [versionOf, List.find?, hr', hq'] using ih
  · rw [Bool.not_eq_true] at h
    rw [if_neg (by simp [h])]
    induction rows with
    | nil =>
      have h1 : (e.id == i) = false := beq_eq_false_iff_ne.mpr (fun he => hne he.symm)
      simp [versionOf, List.find?, h1]
    | cons r rest ih =>
      simp only [List.any_cons, Bool.or_eq_false_iff] at h
      by_cases hq : r.id = i
      · have hq' : (r.id == i) = true := beq_iff_eq.mpr hq
        simp [versionOf, List.find?, hq']
      · have hq' : (r.id == i) = false := beq_eq_false_iff_ne.mpr hq
        simpa [versionOf, List.find?, hq'] using ih h.2

/-- Folding the entity upserts of one `saveGraph` call: the resulting version
of id `i` is its prior version (absent counting as `0`) plus the number of
fragment entities bearing id `i`. -/
theorem versionOf_foldl_upsert (es : List Entity) (rows : List EntityRow)
    (i : String) :
    versionOf (es.foldl upsertEntity rows) i =
      (if es.countP (fun e => e.id == i) = 0 then versionOf rows i
       else some ((versionOf rows i).getD 0 + es.countP (fun e => e.id == i))) := by
  induction es generalizing rows with
  | nil => simp
  | cons e es ih =>
    by_cases he : e.id = i
    · subst he
      rw [List.foldl_cons, ih]
      have hc : (e :: es).countP (fun x => x.id == e.id) =
          es.countP (fun x => x.id == e.id) + 1 := by
        simp [List.countP_cons]
      rw [versionOf_upsert_self]
      by_cases hz : es.countP (fun x => x.id == e.id) = 0
      · simp [hc, hz]
      · simp only [hc, hz, if_false]
        have : ¬ (es.countP (fun x => x.id == e.id) + 1 = 0) := by omega
        simp only [this, if_false, Option.getD_some]
        congr 1
        omega
    · have he' : (e.id == i) = false := beq_eq_false_iff_ne.mpr he
      rw [List.foldl_cons, ih, versionOf_upsert_ne _ _ _ (fun hx => he hx.symm)]
      simp [List.countP_cons, he']

/-- Lemma: `insertRelationship` never touches the entities table, so a successful
relationship loop preserves it. -/
theorem foldlM_insertRel_entities (rels : List Relationship) (s s' : Store)
    (h : rels.foldlM insertRelationship s = Except.ok s') :
    s'.entities = s.entities := by
  induction rels generalizing s with
  | nil =>
    have h' : (Except.ok s : Except String Store) = Except.ok s' := h
    cases h'
    rfl
  | cons r rs ih =>
    rw [List.foldlM_cons] at h
    cases hi : insertRelationship s r with
    | error msg =>
      rw [hi] at h
      have h' : (Except.error msg : Except String Store) = Except.ok s' := h
      simp at h'
    | ok s₁ =>
      rw [hi] at h
      have h' : rs.foldlM insertRelationship s₁ = Except.ok s' := h
      have he : s₁.entities = s.entities := by
        unfold insertRelationship at hi
        split at hi
        · cases hi; rfl
        · cases hi
      rw [ih s₁ h', he]

theorem countP_id_eq_one (es : List Entity) (e : Entity) (he : e ∈ es)
    (hnd : (es.map (·.id)).Nodup) :
    es.countP (fun x => x.id == e.id) = 1 := by
  induction es with
  | nil => simp at he
  | cons a es ih =>
    rw [List.map_cons, List.nodup_cons] at hnd
    rcases List.mem_cons.mp he with rfl | hmem
    · have hz : es.countP (fun x => x.id == e.id) = 0 := by
        rw [List.countP_eq_zero]
        intro x hx hxe
        exact hnd.1 (beq_iff_eq.mp hxe ▸ List.mem_map.mpr ⟨x, hx, rfl⟩)
      simp [List.countP_cons, hz]
    · have hne : (a.id == e.id) = false := by
        have hm : e.id ∈ es.map (·.id) := List.mem_map.mpr ⟨e, hmem, rfl⟩
        exact beq_eq_false_iff_ne.mpr (fun hea => hnd.1 (hea ▸ hm))
      simp [List.countP_cons, hne, ih hmem hnd.2]

/-- C2 (amended): for a successful `saveGraph` call on a fragment whose entity
ids are pairwise distinct, an entity with no prior row ends at `version = 1`
and an entity with a prior row at version `v` ends at exactly `v + 1`.
(`versionOf_foldl_upsert` gives the general law when ids repeat: prior
version, absent counting as 0, plus the number of occurrences.) -/
theorem saveGraph_version_increments (s s' : Store) (g : GraphData)
    (hok : saveGraph s g = Except.ok s')
    (hnd : (g.entities.map (·.id)).Nodup) :
    ∀ e ∈ g.entities,
      (versionOf s.entities e.id = none → versionOf s'.entities e.id = some 1) ∧
      (∀ v, versionOf s.entities e.id = some v →
        versionOf s'.entities e.id = some (v + 1)) := by
  intro e he
  have hlen : g.entities.length > 0 :=
    List.length_pos.mpr (List.ne_nil_of_mem he)
  unfold saveGraph at hok
  rw [if_pos hlen] at hok
  have hent : s'.entities = g.entities.foldl upsertEntity s.entities :=
    foldlM_insertRel_entities _ _ _ hok
  have hc : g.entities.countP (fun x => x.id == e.id) = 1 :=
    countP_id_eq_one g.entities e he hnd
  have hv := versionOf_foldl_upsert g.entities s.entities e.id
  rw [hc] at hv
  simp only [Nat.one_ne_zero, if_false] at hv
  constructor
  · intro hnone
    rw [hent, hv, hnone]
    rfl
  · intro v hsome
    rw [hent, hv, hsome]
    rfl

/-- The empty store. -/
def emptyStore : Store := { entities := [], relationships := [] }

/-- A fragment containing two entities with the same id. -/
def gDupEx : GraphData :=
  { entities := [{ id := "a", name := "A1", type := "T" },
                 { id := "a", name := "A2", type := "T" }],
    relationships := [] }

/-- C2 counterexample: id `"a"` has no prior row, yet after `saveGraph` of a
fragment listing it twice the row ends at `version = 2`, not the claimed
`version = 1`. -/
theorem saveGraph_duplicate_id_counterexample :
    versionOf emptyStore.entities "a" = none ∧
    (saveGraph emptyStore gDupEx).map (fun s => versionOf s.entities "a") =
      Except.ok (some 2) :=
  ⟨rfl, rfl⟩

/-- Prior store for the C2 witness: one row `a` at version 3. -/
def storeV : Store :=
  { entities := [{ id := "a", name := "Old", type := "T", description := none,
                   metadata := none, version := 3 }],
    relationships := [] }

/-- Fragment for the C2 witness: updates `a` and creates `b`. -/
def gVW : GraphData :=
  { entities := [{ id := "a", name := "New", type := "T" },
                 { id := "b", name := "B", type := "T" }],
    relationships := [] }

/-- Post-state of `saveGraph storeV gVW`. -/
def storeVOut : Store :=
  { entities := [{ id := "a", name := "New", type := "T", description := none,
                   metadata := none, version := 4 },
                 { id := "b", name := "B", type := "T", description := none,
                   metadata := none, version := 1 }],
    relationships := [] }

/-- C2 witness: `saveGraph_version_increments` applied to `storeV` / `gVW`. -/
theorem saveGraph_version_increments_witness :
    saveGraph storeV gVW = Except.ok storeVOut ∧
    (gVW.entities.map (·.id)).Nodup ∧
    (∀ e ∈ gVW.entities,
      (versionOf storeV.entities e.id = none →
        versionOf storeVOut.entities e.id = some 1) ∧
      (∀ v, versionOf storeV.entities e.id = some v →
        versionOf storeVOut.entities e.id = some (v + 1))) :=
  ⟨rfl, by decide,
    saveGraph_version_increments storeV storeVOut gVW rfl (by decide)⟩

/-! ### Definer, from `src/pipeline/define/index.ts` -/

/-- Outcome of one batch of the Define stage as the code distinguishes them:
the `llm.chat` call may throw, `JSON.parse` may throw, or parsing succeeds and
the code extracts an entity array (`parsed.entities`, or `parsed` itself when
it is an array; an unrecognized shape yields the empty list). -/
inductive BatchOutcome where
  | llmError
  | parseError
  | ok (refined : List Entity)

/-- Per-batch handling in `Definer.process`: an LLM error or a JSON-parse
error is caught and falls back to the original batch (with a logged message),
as does an empty refined list; a non-empty refined list is taken as-is. -/
def processBatch (batch : List Entity) (out : BatchOutcome) : List Entity :=
  match out with
  | .llmError => batch
  | .parseError => batch
  | .ok [] => batch
  | .ok (r :: rs) => r :: rs

/-- The batching loop of `Definer.process`: slices of `BATCH_SIZE = 50`,
batch `k` receiving the `k`-th LLM outcome; the per-batch results are
concatenated into `refinedEntities`.  The loop consumes at least one entity
per iteration, so running it on fuel `es.length` (see `definerBatches`) is
exact; the fuel only makes the recursion structural. -/
def definerBatchesF (outcomes : Nat → BatchOutcome) :
    Nat → Nat → List Entity → List Entity
  | 0, _, _ => []
  | _ + 1, _, [] => []
  | fuel + 1, k, e :: rest =>
    processBatch ((e :: rest).take 50) (outcomes k) ++
      definerBatchesF outcomes fuel (k + 1) ((e :: rest).drop 50)

/-- The list `refinedEntities` as accumulated by `Definer.process` over all batches. -/
def definerBatches (outcomes : Nat → BatchOutcome) (k : Nat)
    (es : List Entity) : List Entity :=
  definerBatchesF outcomes es.length k es

/-- The merge-back step: match a refined record against the original map by
id, then (JS `||`) by name, falling back to the refined record itself; the
result adopts the refined `type` and `name` on top of the chosen original. -/
def definerMergeBack (entityMap : List (String × Entity)) (r : Entity) :
    Entity :=
  let original :=
    match lookupA entityMap r.id with
    | some o => o
    | none =>
      match lookupA entityMap r.name with
      | some o => o
      | none => r
  { original with type := r.type, name := r.name }

/-- The method `Definer.process`: an empty fragment is returned as-is; otherwise the
batches are refined and merged back over a map keyed by original entity id.
Every failure path is caught inside the loop, so no branch produces an
`Except.error`. -/
def definerProcess (input : GraphData) (outcomes : Nat → BatchOutcome) :
    Except String GraphData :=
  if input.entities.length = 0 then .ok input
  else
    let refined := definerBatches outcomes 0 input.entities
    let entityMap := input.entities.foldl (fun m n => mapSet m n.id n) []
    .ok { entities := refined.map (definerMergeBack entityMap),
          relationships := input.relationships }

/-- C4 (amended): `Definer.process` never propagates an LLM or JSON-parse
failure: whatever the per-batch outcomes, it returns a successful result (a
failed batch falls back to its original entities). -/
theorem definerProcess_never_fails (input : GraphData)
    (outcomes : Nat → BatchOutcome) :
    ∃ g, definerProcess input outcomes = Except.ok g := by
  unfold definerProcess
  split
  · exact ⟨_, rfl⟩
  · exact ⟨_, rfl⟩

/-- One-entity fragment used by the Definer counterexamples. -/
def gDefEx : GraphData :=
  { entities := [{ id := "a", name := "A", type := "T" }],
    relationships := [] }

/-- C4 counterexample: when the (only) batch's LLM call fails, and likewise
when its JSON parse fails, `Definer.process` swallows the error and returns a
successful result carrying the original entities — the stage does not fail. -/
theorem definer_swallows_failures_counterexample :
    definerProcess gDefEx (fun _ => BatchOutcome.llmError) = Except.ok gDefEx ∧
    definerProcess gDefEx (fun _ => BatchOutcome.parseError) = Except.ok gDefEx :=
  ⟨rfl, rfl⟩

/-- Fragment for the C3 counterexample: one original entity with id `"a"`. -/
def gDefHal : GraphData :=
  { entities := [{ id := "a", name := "A", type := "T",
                   description := some "d" }],
    relationships := [] }

/-- C3 counterexample: when the refined list contains a record whose id
matches no original (`"b"`), the output is built from the refined list — the
hallucinated record is emitted as-is and the original entity `"a"` is dropped
rather than kept, so the output id set differs from the input id set. -/
theorem definer_id_set_counterexample :
    (definerProcess gDefHal
        (fun _ => BatchOutcome.ok [{ id := "b", name := "B", type := "U" }])).map
        (fun g => g.entities.map (·.id)) = Except.ok ["b"] ∧
    gDefHal.entities.map (·.id) = ["a"] :=
  ⟨rfl, rfl⟩

/-- A faithful LLM refinement: whenever batch `k` parses to a non-empty
refined list, that list's ids enumerate the batch's ids in order.  Mirrors
the recursion of `definerBatchesF`. -/
def FaithfulRefinementF (outcomes : Nat → BatchOutcome) :
    Nat → Nat → List Entity → Prop
  | 0, _, _ => True
  | _ + 1, _, [] => True
  | fuel + 1, k, e :: rest =>
    (∀ l, outcomes k = BatchOutcome.ok l → l ≠ [] →
      l.map (·.id) = ((e :: rest).take 50).map (·.id)) ∧
    FaithfulRefinementF outcomes fuel (k + 1) ((e :: rest).drop 50)

/-- Predicate `FaithfulRefinementF` at the fuel `definerBatches` runs with. -/
def FaithfulRefinement (outcomes : Nat → BatchOutcome) (k : Nat)
    (es : List Entity) : Prop :=
  FaithfulRefinementF outcomes es.length k es

theorem definerBatchesF_ids (outcomes : Nat → BatchOutcome) (fuel : Nat) :
    ∀ (k : Nat) (es : List Entity), es.length ≤ fuel →
      FaithfulRefinementF outcomes fuel k es →
      (definerBatchesF outcomes fuel k es).map (·.id) = es.map (·.id) := by
  induction fuel with
  | zero =>
    intro k es hle _
    have : es = [] := List.eq_nil_of_length_eq_zero (Nat.le_zero.mp hle)
    subst this
    rfl
  | succ n ih =>
    intro k es hle hf
    cases es with
    | nil => rfl
    | cons e rest =>
      obtain ⟨h1, h2⟩ := hf
      have hdl : ((e :: rest).drop 50).length ≤ n := by
        simp only [List.length_drop, List.length_cons]
        simp only [List.length_cons] at hle
        omega
      show (processBatch ((e :: rest).take 50) (outcomes k) ++
          definerBatchesF outcomes n (k + 1) ((e :: rest).drop 50)).map (·.id) =
          (e :: rest).map (·.id)
      rw [List.map_append, ih (k + 1) _ hdl h2]
      have hpb : (processBatch ((e :: rest).take 50) (outcomes k)).map (·.id) =
          ((e :: rest).take 50).map (·.id) := by
        cases ho : outcomes k with
        | llmError => rfl
        | parseError => rfl
        | ok l =>
          cases l with
          | nil => rfl
          | cons r rs => exact h1 (r :: rs) ho (by simp)
      rw [hpb, ← List.map_append, List.take_append_drop]

/-- Folding `Map.set` over entities whose ids all avoid `i` does not change
the binding of `i`. -/
theorem lookupA_entityMap_frame (es : List Entity)
    (m0 : List (String × Entity)) (i : String)
    (h : ∀ n ∈ es, n.id ≠ i) :
    lookupA (es.foldl (fun m n => mapSet m n.id n) m0) i = lookupA m0 i := by
  induction es generalizing m0 with
  | nil => rfl
  | cons a es ih =>
    rw [List.foldl_cons, ih _ (fun n hn => h n (List.mem_cons_of_mem _ hn)),
      lookupA_mapSet_ne _ _ _ _ (fun he => h a (List.mem_cons_self _ _) he.symm)]

/-- With pairwise-distinct ids, the entity map built by `Definer.process`
binds each entity's id to that entity. -/
theorem lookupA_entityMap (es : List Entity) (m0 : List (String × Entity))
    (e : Entity) (he : e ∈ es) (hnd : (es.map (·.id)).Nodup) :
    lookupA (es.foldl (fun m n => mapSet m n.id n) m0) e.id = some e := by
  induction es generalizing m0 with
  | nil => simp at he
  | cons a es ih =>
    rw [List.map_cons, List.nodup_cons] at hnd
    rcases List.mem_cons.mp he with rfl | hmem
    · rw [List.foldl_cons,
        lookupA_entityMap_frame es _ e.id
          (fun n hn hni => hnd.1 (hni ▸ List.mem_map.mpr ⟨n, hn, rfl⟩)),
        lookupA_mapSet_self]
    · rw [List.foldl_cons]
      exact ih _ hmem hnd.2

/-- C3 (amended): provided the fragment's entity ids are pairwise distinct
and every successfully parsed non-empty batch refinement enumerates exactly
its batch's ids (`FaithfulRefinement`; failed or empty batches fall back to
the originals and are always fine), `Definer.process` returns as many
entities as the input with the same id list in order, each output entity
preserving its original's `id`, `description`, `aliases` and `metadata`
(only `type` and `name` may change), and leaves relationships untouched.
In general a refined record whose id matches no original is emitted as-is
and the unmatched original is dropped (see the counterexample). -/
theorem forall₂_of_map_eq {α β γ : Type} {f : α → γ} {g : β → γ} :
    ∀ {l₁ : List α} {l₂ : List β}, l₁.map f = l₂.map g →
      List.Forall₂ (fun a b => f a = g b) l₁ l₂ := by
  intro l₁
  induction l₁ with
  | nil =>
    intro l₂ h
    cases l₂ with
    | nil => exact List.Forall₂.nil
    | cons b l₂ => simp at h
  | cons a l₁ ih =>
    intro l₂ h
    cases l₂ with
    | nil => simp at h
    | cons b l₂ =>
      simp only [List.map_cons, List.cons.injEq] at h
      exact List.Forall₂.cons h.1 (ih h.2)

theorem definer_refinement_preserves (input : GraphData)
    (outcomes : Nat → BatchOutcome)
    (hnd : (input.entities.map (·.id)).Nodup)
    (hf : FaithfulRefinement outcomes 0 input.entities) :
    ∃ out, definerProcess input outcomes = Except.ok out ∧
      out.entities.length = input.entities.length ∧
      out.entities.map (·.id) = input.entities.map (·.id) ∧
      List.Forall₂ (fun o n : Entity =>
        n.id = o.id ∧ n.description = o.description ∧
        n.aliases = o.aliases ∧ n.metadata = o.metadata)
        input.entities out.entities ∧
      out.relationships = input.relationships := by
  by_cases hz : input.entities.length = 0
  · refine ⟨input, by simp [definerProcess, hz], rfl, rfl, ?_, rfl⟩
    have : input.entities = [] := List.eq_nil_of_length_eq_zero hz
    rw [this]
    exact List.Forall₂.nil
  · have hids : (definerBatches outcomes 0 input.entities).map (·.id) =
        input.entities.map (·.id) :=
      definerBatchesF_ids outcomes input.entities.length 0 input.entities
        (Nat.le_refl _) hf
    have hlen : (definerBatches outcomes 0 input.entities).length =
        input.entities.length := by
      have h := congrArg List.length hids
      simpa using h
    have hlook : ∀ r ∈ definerBatches outcomes 0 input.entities,
        ∃ n ∈ input.entities, n.id = r.id ∧
          lookupA (input.entities.foldl (fun m n => mapSet m n.id n) []) r.id =
            some n := by
      intro r hr
      have hm : r.id ∈ input.entities.map (·.id) := by
        rw [← hids]
        exact List.mem_map.mpr ⟨r, hr, rfl⟩
      obtain ⟨n, hn, hni⟩ := List.mem_map.mp hm
      exact ⟨n, hn, hni, hni ▸ lookupA_entityMap input.entities [] n hn hnd⟩
    refine ⟨GraphData.mk
        ((definerBatches outcomes 0 input.entities).map
          (definerMergeBack (input.entities.foldl (fun m n => mapSet m n.id n) [])))
        input.relationships none,
      ?_, ?_, ?_, ?_, rfl⟩
    · unfold definerProcess
      rw [if_neg hz]
    · simpa using hlen
    · simp only [List.map_map]
      rw [← hids]
      refine List.map_congr_left ?_
      intro r hr
      obtain ⟨n, _, hni, hl⟩ := hlook r hr
      simp only [Function.comp_apply, definerMergeBack, hl]
      exact hni
    · rw [List.forall₂_map_right_iff]
      have hF : List.Forall₂ (fun (n r : Entity) => n ∈ input.entities ∧ n.id = r.id)
          input.entities (definerBatches outcomes 0 input.entities) := by
        rw [List.forall₂_and_left]
        exact ⟨fun a ha => ha, forall₂_of_map_eq hids.symm⟩
      refine hF.imp ?_
      rintro o r ⟨ho, hid⟩
      have hl : lookupA (input.entities.foldl (fun m n => mapSet m n.id n) []) r.id =
          some o := hid ▸ lookupA_entityMap input.entities [] o ho hnd
      simp only [definerMergeBack, hl]
      exact ⟨trivial, trivial, trivial, trivial⟩

/-- Fragment for the C3 witness. -/
def gDefW : GraphData :=
  { entities := [{ id := "a", name := "A", type := "T", description := some "da" },
                 { id := "b", name := "B", type := "T" }],
    relationships := [{ sourceId := "a", targetId := "b", type := "uses" }] }

/-- A faithful refinement response for `gDefW`: same ids, new types/names. -/
def outcomesW : Nat → BatchOutcome := fun _ =>
  BatchOutcome.ok [{ id := "a", name := "A2", type := "Method" },
                   { id := "b", name := "B2", type := "Metric" }]

/-- C3 witness: `definer_refinement_preserves` applied to `gDefW` and
`outcomesW`. -/
theorem definer_refinement_preserves_witness :
    (gDefW.entities.map (·.id)).Nodup ∧
    FaithfulRefinement outcomesW 0 gDefW.entities ∧
    (∃ out, definerProcess gDefW outcomesW = Except.ok out ∧
      out.entities.length = gDefW.entities.length ∧
      out.entities.map (·.id) = gDefW.entities.map (·.id) ∧
      List.Forall₂ (fun o n : Entity =>
        n.id = o.id ∧ n.description = o.description ∧
        n.aliases = o.aliases ∧ n.metadata = o.metadata)
        gDefW.entities out.entities ∧
      out.relationships = gDefW.relationships) := by
  have hf : FaithfulRefinement outcomesW 0 gDefW.entities := by
    constructor
    · intro l hl _
      simp only [outcomesW] at hl
      injection hl with h
      subst h
      rfl
    · trivial
  exact ⟨by decide, hf,
    definer_refinement_preserves gDefW outcomesW (by decide) hf⟩

/-! ### Integration entity resolution, from
`src/pipeline/workflow/integrationWorkflow.ts` (the parallel-task variant of
the same file builds `referencedEntityIds` identically) -/

/-- The JSON object an LLM resolution response parses to. -/
structure ResolutionDecision where
  action : String
  targetId : Option String := none
  confidence : Rat := 0
  rationale : String := ""
deriving DecidableEq

/-- Outcome of one per-entity LLM resolution call: `llm.complete` may throw
(not caught by the per-entity handler), the JSON parse may throw (caught,
defaulting to CREATE with confidence 0), or a decision is parsed. -/
inductive ResolutionOutcome where
  | llmFailure
  | parseError
  | parsed (d : ResolutionDecision)

/-- A `MergeDecision` record of the merge log. -/
structure MergeDecision where
  newEntityId : String
  action : String
  targetId : Option String := none
  confidence : Rat := 0
  rationale : String := ""
deriving DecidableEq

/-- JS truthiness of an optional string (`undefined` and `""` are falsy). -/
def truthy : Option String → Bool
  | some s => !(s == "")
  | none => false

/-- One entity's resolution: no candidates short-circuits to CREATE with
confidence 1 (no LLM call); otherwise the LLM is consulted — a parse failure
defaults to CREATE with confidence 0, and a MERGE decision with a truthy
`targetId` maps the entity's id to that target.  The returned pair is the
`idMapping` entry's value and the `mergeLog` entry. -/
def resolveTask (e : Entity) (cands : Option (List Entity))
    (out : ResolutionOutcome) : Except String (String × MergeDecision) :=
  match cands with
  | none =>
    .ok (e.id, ⟨e.id, "CREATE", none, 1, "No similar entities found"⟩)
  | some [] =>
    .ok (e.id, ⟨e.id, "CREATE", none, 1, "No similar entities found"⟩)
  | some (_ :: _) =>
    match out with
    | .llmFailure => .error "LLM call failed"
    | .parseError =>
      .ok (e.id, ⟨e.id, "CREATE", none, 0, "LLM response parse error"⟩)
    | .parsed d =>
      let isMerge := (d.action == "MERGE") && truthy d.targetId
      .ok ((if isMerge then d.targetId.getD e.id else e.id),
        ⟨e.id, d.action, d.targetId, d.confidence, d.rationale⟩)

/-- The resolution loop: entity `j` of the list receives LLM outcome
`resp (k + j)`; `idMapping` accumulates via `Map.set` and the merge log
collects one decision per entity in order. -/
def resolveAll (cands : String → Option (List Entity))
    (resp : Nat → ResolutionOutcome) :
    List Entity → Nat → List (String × String) →
      Except String (List (String × String) × List MergeDecision)
  | [], _, m => .ok (m, [])
  | e :: es, k, m =>
    match resolveTask e (cands e.id) (resp k) with
    | .error msg => .error msg
    | .ok (t, d) =>
      match resolveAll cands resp es (k + 1) (mapSet m e.id t) with
      | .error msg => .error msg
      | .ok (m', log) => .ok (m', d :: log)

/-- JS `[...new Set(l)]`: dedup keeping first occurrences in order. -/
def jsSetDedup (l : List String) : List String :=
  l.foldl (fun acc x => if x ∈ acc then acc else acc ++ [x]) []

/-- Rebuilding the resolved graph: keep entities whose resolved id is their
own id; rewrite relationship endpoints through `idMapping` (JS `||`
fallback); `referencedEntityIds` collects mapping targets that are not ids of
kept entities, and is present only when non-empty. -/
def buildResolvedGraph (newGraph : GraphData)
    (idMapping : List (String × String)) : GraphData :=
  let resolvedEntities := newGraph.entities.filter
    (fun e => (lookupA idMapping e.id).getD e.id == e.id)
  let resolvedRelationships := newGraph.relationships.map (fun r =>
    { r with sourceId := jsOrElse idMapping r.sourceId,
             targetId := jsOrElse idMapping r.targetId })
  let mergeTargetIds := jsSetDedup ((idMapping.map (·.2)).filter
    (fun t => !(resolvedEntities.any (fun e => e.id == t))))
  { entities := resolvedEntities,
    relationships := resolvedRelationships,
    referencedEntityIds :=
      if mergeTargetIds.isEmpty then none else some mergeTargetIds }

/-- The resolution step of `createIntegrationWorkflow`: run all tasks, then
rebuild the graph; an uncaught LLM failure propagates as the step's error. -/
def integrationResolve (newGraph : GraphData)
    (cands : String → Option (List Entity))
    (resp : Nat → ResolutionOutcome) :
    Except String (GraphData × List MergeDecision) :=
  match resolveAll cands resp newGraph.entities 0 [] with
  | .error msg => .error msg
  | .ok (m, log) => .ok (buildResolvedGraph newGraph m, log)

/-- C8: a new entity with no retrieved candidates (absent from the candidate
map or mapped to an empty list) resolves — without error — to a CREATE
decision with confidence 1.0 mapping its id to itself, and a JSON-parse
failure on an entity with candidates resolves — without error — to a CREATE
decision with confidence 0.0 mapping its id to itself. -/
theorem resolver_defaults (e : Entity) (out : ResolutionOutcome) (c : Entity)
    (cs : List Entity) :
    resolveTask e none out =
      Except.ok (e.id, ⟨e.id, "CREATE", none, 1, "No similar entities found"⟩) ∧
    resolveTask e (some []) out =
      Except.ok (e.id, ⟨e.id, "CREATE", none, 1, "No similar entities found"⟩) ∧
    resolveTask e (some (c :: cs)) ResolutionOutcome.parseError =
      Except.ok (e.id, ⟨e.id, "CREATE", none, 0, "LLM response parse error"⟩) :=
  ⟨rfl, rfl, rfl⟩

/-- Per-entity accounting of the resolution loop: under distinct entity ids
and MERGE targets that are non-empty and fresh (not ids of the remaining
entities), each entity is counted exactly once — either it keeps its own id
(CREATE-like) or its log entry carries action `"MERGE"` — and ids outside the
entity list keep their prior mapping. -/
theorem resolveAll_law (cands : String → Option (List Entity))
    (resp : Nat → ResolutionOutcome) :
    ∀ (es : List Entity) (k : Nat) (m0 m : List (String × String))
      (log : List MergeDecision),
      resolveAll cands resp es k m0 = Except.ok (m, log) →
      (es.map (·.id)).Nodup →
      (∀ n d, resp n = ResolutionOutcome.parsed d → d.action = "MERGE" →
        ∃ s, d.targetId = some s ∧ s ≠ "" ∧ ∀ e ∈ es, s ≠ e.id) →
      ((es.filter (fun e => (lookupA m e.id).getD e.id == e.id)).length +
        (log.filter (fun d => d.action == "MERGE")).length = es.length) ∧
      (∀ i, (∀ e ∈ es, e.id ≠ i) → lookupA m i = lookupA m0 i) := by
  intro es
  induction es with
  | nil =>
    intro k m0 m log h _ _
    have h' : (Except.ok (m0, ([] : List MergeDecision)) :
        Except String _) = Except.ok (m, log) := h
    simp only [Except.ok.injEq, Prod.mk.injEq] at h'
    obtain ⟨rfl, rfl⟩ := h'
    exact ⟨rfl, fun _ _ => rfl⟩
  | cons e es ih =>
    intro k m0 m log h hnd hm
    rw [List.map_cons, List.nodup_cons] at hnd
    cases ht : resolveTask e (cands e.id) (resp k) with
    | error msg =>
      simp only [resolveAll, ht] at h
      simp at h
    | ok td =>
      obtain ⟨t, d⟩ := td
      simp only [resolveAll, ht] at h
      cases hr : resolveAll cands resp es (k + 1) (mapSet m0 e.id t) with
      | error msg => rw [hr] at h; simp at h
      | ok pair =>
        obtain ⟨m', log'⟩ := pair
        rw [hr] at h
        simp only [Except.ok.injEq, Prod.mk.injEq] at h
        obtain ⟨rfl, rfl⟩ := h
        obtain ⟨hsum, hframe⟩ := ih (k + 1) (mapSet m0 e.id t) m' log' hr hnd.2
          (fun n dd hn ha => (hm n dd hn ha).imp
            (fun s hs => ⟨hs.1, hs.2.1,
              fun e' he' => hs.2.2 e' (List.mem_cons_of_mem _ he')⟩))
        have hme : lookupA m' e.id = some t := by
          rw [hframe e.id
            (fun e' he' hc => hnd.1 (hc ▸ List.mem_map.mpr ⟨e', he', rfl⟩))]
          exact lookupA_mapSet_self _ _ _
        have key : (t = e.id ∧ (d.action == "MERGE") = false) ∨
            (t ≠ e.id ∧ (d.action == "MERGE") = true) := by
          cases hc : cands e.id with
          | none =>
            rw [hc] at ht
            simp only [resolveTask, Except.ok.injEq, Prod.mk.injEq] at ht
            exact Or.inl ⟨ht.1.symm, by rw [← ht.2]; rfl⟩
          | some l =>
            cases l with
            | nil =>
              rw [hc] at ht
              simp only [resolveTask, Except.ok.injEq, Prod.mk.injEq] at ht
              exact Or.inl ⟨ht.1.symm, by rw [← ht.2]; rfl⟩
            | cons c cs =>
              rw [hc] at ht
              cases ho : resp k with
              | llmFailure => rw [ho] at ht; simp [resolveTask] at ht
              | parseError =>
                rw [ho] at ht
                simp only [resolveTask, Except.ok.injEq, Prod.mk.injEq] at ht
                exact Or.inl ⟨ht.1.symm, by rw [← ht.2]; rfl⟩
              | parsed dd =>
                rw [ho] at ht
                simp only [resolveTask, Except.ok.injEq, Prod.mk.injEq] at ht
                by_cases ha : dd.action = "MERGE"
                · obtain ⟨s, hs1, hs2, hs3⟩ := hm k dd ho ha
                  have hmerge : ((dd.action == "MERGE") &&
                      truthy dd.targetId) = true := by
                    rw [ha, hs1]
                    simp [truthy, hs2]
                  rw [hmerge] at ht
                  refine Or.inr ⟨?_, ?_⟩
                  · rw [← ht.1, hs1]
                    simpa using hs3 e (List.mem_cons_self _ _)
                  · rw [← ht.2, ha]
                    rfl
                · have hmerge : ((dd.action == "MERGE") &&
                      truthy dd.targetId) = false := by
                    simp [ha]
                  rw [hmerge] at ht
                  refine Or.inl ⟨ht.1.symm, ?_⟩
                  rw [← ht.2]
                  simpa using ha
        constructor
        · rw [List.filter_cons, List.filter_cons]
          rcases key with ⟨ht1, ht2⟩ | ⟨ht1, ht2⟩
          · have hpe : ((lookupA m' e.id).getD e.id == e.id) = true := by
              rw [hme, ht1]
              simp
            simp only [hpe, ht2, if_true, Bool.false_eq_true, if_false,
              List.length_cons]
            omega
          · have hpe : ((lookupA m' e.id).getD e.id == e.id) = false := by
              rw [hme]
              simpa using ht1
            simp only [hpe, ht2, if_true, Bool.false_eq_true, if_false,
              List.length_cons]
            omega
        · intro i hi
          rw [hframe i (fun e' he' => hi e' (List.mem_cons_of_mem _ he')),
            lookupA_mapSet_ne _ _ _ _
              (fun hc => hi e (List.mem_cons_self _ _) hc.symm)]

/-- C7 (amended): provided the fragment's entity ids are pairwise distinct
and every parsed MERGE decision carries a non-empty `targetId` that is not
the id of any fragment entity (a pre-existing store id), the integration law
`|resolvedGraph.entities| + |{d ∈ mergeLog : d.action = MERGE}| =
|newGraph.entities|` holds for every successful resolution step.  A MERGE
decision without a `targetId` is logged as MERGE but leaves its entity in the
resolved graph, breaking the law (see the counterexample). -/
theorem integration_resolution_law (g : GraphData)
    (cands : String → Option (List Entity)) (resp : Nat → ResolutionOutcome)
    (hnd : (g.entities.map (·.id)).Nodup)
    (hm : ∀ n d, resp n = ResolutionOutcome.parsed d → d.action = "MERGE" →
      ∃ s, d.targetId = some s ∧ s ≠ "" ∧ ∀ e ∈ g.entities, s ≠ e.id)
    (rg : GraphData) (log : List MergeDecision)
    (hok : integrationResolve g cands resp = Except.ok (rg, log)) :
    rg.entities.length + (log.filter (fun d => d.action == "MERGE")).length =
      g.entities.length := by
  unfold integrationResolve at hok
  cases hr : resolveAll cands resp g.entities 0 [] with
  | error msg => rw [hr] at hok; simp at hok
  | ok pair =>
    obtain ⟨m, log'⟩ := pair
    rw [hr] at hok
    simp only [Except.ok.injEq, Prod.mk.injEq] at hok
    obtain ⟨rfl, rfl⟩ := hok
    have hlaw := (resolveAll_law cands resp g.entities 0 [] m log' hr hnd hm).1
    simpa [buildResolvedGraph] using hlaw

/-- One-entity graph for the C7 counterexample. -/
def gIntEx : GraphData :=
  { entities := [{ id := "a", name := "A", type := "T" }],
    relationships := [] }

/-- Candidate map giving entity `"a"` one candidate. -/
def candsEx : String → Option (List Entity) := fun i =>
  if i = "a" then some [{ id := "z", name := "Z", type := "T" }] else none

/-- An LLM response claiming MERGE but carrying no `targetId`. -/
def respEx : Nat → ResolutionOutcome := fun _ =>
  ResolutionOutcome.parsed { action := "MERGE" }

/-- C7 counterexample: a MERGE decision without `targetId` is logged as MERGE
while its entity stays in the resolved graph, so
`|resolvedGraph.entities| + |mergeLog where action=MERGE| = 2 ≠ 1 =
|newGraph.entities|`. -/
theorem integration_law_counterexample :
    (integrationResolve gIntEx candsEx respEx).map
      (fun p => p.1.entities.length +
        (p.2.filter (fun d => d.action == "MERGE")).length) = Except.ok 2 ∧
    gIntEx.entities.length = 1 :=
  ⟨rfl, rfl⟩

/-- Two-entity graph for the C7 witness: `a` has no candidates, `b` is merged
into the pre-existing store id `"store1"`. -/
def gIntW : GraphData :=
  { entities := [{ id := "a", name := "A", type := "T" },
                 { id := "b", name := "B", type := "T" }],
    relationships := [{ sourceId := "a", targetId := "b", type := "uses" }] }

/-- Candidates for the C7 witness: only `b` has one. -/
def candsW : String → Option (List Entity) := fun i =>
  if i = "b" then some [{ id := "store1", name := "B prime", type := "T" }]
  else none

/-- LLM responses for the C7 witness: MERGE into `"store1"`. -/
def respW : Nat → ResolutionOutcome := fun _ =>
  ResolutionOutcome.parsed
    { action := "MERGE", targetId := some "store1", confidence := 1,
      rationale := "same entity" }

/-- C7 witness: `integration_resolution_law` applied to `gIntW`, with the
resolution evaluated on the concrete input. -/
theorem integration_resolution_law_witness :
    (gIntW.entities.map (·.id)).Nodup ∧
    (∀ n d, respW n = ResolutionOutcome.parsed d → d.action = "MERGE" →
      ∃ s, d.targetId = some s ∧ s ≠ "" ∧ ∀ e ∈ gIntW.entities, s ≠ e.id) ∧
    (∀ rg log, integrationResolve gIntW candsW respW = Except.ok (rg, log) →
      rg.entities.length +
        (log.filter (fun d => d.action == "MERGE")).length =
        gIntW.entities.length) := by
  have hm : ∀ n d, respW n = ResolutionOutcome.parsed d → d.action = "MERGE" →
      ∃ s, d.targetId = some s ∧ s ≠ "" ∧ ∀ e ∈ gIntW.entities, s ≠ e.id := by
    intro n d h _
    simp only [respW] at h
    injection h with hd
    subst hd
    exact ⟨"store1", rfl, by decide, by decide⟩
  exact ⟨by decide, hm,
    fun rg log hok =>
      integration_resolution_law gIntW candsW respW (by decide) hm rg log hok⟩

/-! ### Resilience utility, from `src/utils/resilience.ts` -/

/-- The configuration `RETRY_DEFAULTS`, overridable per call. -/
structure RetryConfig where
  retries : Nat := 3
  factor : Nat := 2
  minTimeout : Nat := 1000
  maxTimeout : Nat := 10000
deriving DecidableEq

/-- The fields of a JS error that `shouldRetry` inspects. -/
structure JsError where
  message : String
  status : Option Nat := none
deriving DecidableEq

/-- The classifier `shouldRetry`: payment/quota messages, auth messages and status 404 are
not retried; everything else is. -/
def shouldRetry (e : JsError) : Bool :=
  if strContains e.message "Payment Required" || strContains e.message "402"
  then false
  else if strContains e.message "Unauthorized" || strContains e.message "401"
  then false
  else if e.status == some 404 then false
  else true

/-- The sleep before the retry following failed attempt `attempt`:
`min(minTimeout * factor ^ (attempt - 1), maxTimeout)`. -/
def delayFor (cfg : RetryConfig) (attempt : Nat) : Nat :=
  min (cfg.minTimeout * cfg.factor ^ (attempt - 1)) cfg.maxTimeout

/-- Observable behaviour of one `withRetry` run: its result, how many times
the operation was invoked, and the sleeps performed between attempts. -/
structure RetryTrace (α : Type) where
  result : Except JsError α
  attemptsMade : Nat
  sleeps : List Nat

/-- The retry loop `for (attempt = 1; attempt <= retries + 1; attempt++)`,
with the outcome of attempt `n` supplied by `op n`.  On an error that is
non-retryable or arrives when `attempt > retries`, the error is rethrown at
once; otherwise the loop sleeps `delayFor cfg attempt` and retries.  The fuel
equals the remaining admissible attempts, so the `0` case is unreachable from
`withRetry`. -/
def withRetryGo (op : Nat → Except JsError α) (cfg : RetryConfig) :
    Nat → Nat → RetryTrace α
  | 0, _ => ⟨Except.error ⟨"", none⟩, 0, []⟩
  | fuel + 1, attempt =>
    match op attempt with
    | .ok a => ⟨.ok a, 1, []⟩
    | .error e =>
      if !(shouldRetry e) || attempt > cfg.retries then ⟨.error e, 1, []⟩
      else
        let rest := withRetryGo op cfg fuel (attempt + 1)
        ⟨rest.result, rest.attemptsMade + 1, delayFor cfg attempt :: rest.sleeps⟩

/-- The function `withRetry`: the loop starting at attempt 1 with `retries + 1` admissible
attempts. -/
def withRetry (op : Nat → Except JsError α) (cfg : RetryConfig) :
    RetryTrace α :=
  withRetryGo op cfg (cfg.retries + 1) 1

theorem withRetryGo_ok (op : Nat → Except JsError α) (cfg : RetryConfig)
    (fuel attempt : Nat) (a : α) (h : op attempt = Except.ok a) :
    withRetryGo op cfg (fuel + 1) attempt = ⟨Except.ok a, 1, []⟩ := by
  conv_lhs => rw [withRetryGo]
  rw [h]

theorem withRetryGo_error (op : Nat → Except JsError α) (cfg : RetryConfig)
    (fuel attempt : Nat) (e : JsError) (h : op attempt = Except.error e) :
    withRetryGo op cfg (fuel + 1) attempt =
      if !(shouldRetry e) || attempt > cfg.retries then ⟨Except.error e, 1, []⟩
      else
        ⟨(withRetryGo op cfg fuel (attempt + 1)).result,
         (withRetryGo op cfg fuel (attempt + 1)).attemptsMade + 1,
         delayFor cfg attempt :: (withRetryGo op cfg fuel (attempt + 1)).sleeps⟩ := by
  conv_lhs => rw [withRetryGo]
  rw [h]

theorem withRetryGo_attempts_le (op : Nat → Except JsError α)
    (cfg : RetryConfig) :
    ∀ fuel attempt, (withRetryGo op cfg fuel attempt).attemptsMade ≤ fuel := by
  intro fuel
  induction fuel with
  | zero => intro attempt; exact Nat.le_refl 0
  | succ n ih =>
    intro attempt
    cases hop : op attempt with
    | ok a =>
      rw [withRetryGo_ok op cfg n attempt a hop]
      show 1 ≤ n + 1
      omega
    | error e =>
      rw [withRetryGo_error op cfg n attempt e hop]
      split
      · show 1 ≤ n + 1
        omega
      · show (withRetryGo op cfg n (attempt + 1)).attemptsMade + 1 ≤ n + 1
        exact Nat.succ_le_succ (ih (attempt + 1))

/-- Full characterization of an erroring run of the loop: if attempt `k`
fails with an error that is non-retryable (or `k` is the final admissible
attempt) and all earlier attempts failed with retryable errors, the loop
returns that error after exactly `k + 1 - attempt` invocations, having slept
`delayFor` after each failed attempt before `k`. -/
theorem withRetryGo_error_char (op : Nat → Except JsError α)
    (cfg : RetryConfig) :
    ∀ (fuel attempt k : Nat) (e : JsError),
      attempt + fuel = cfg.retries + 2 →
      1 ≤ attempt → attempt ≤ k → k ≤ cfg.retries + 1 →
      op k = Except.error e →
      (shouldRetry e = false ∨ k = cfg.retries + 1) →
      (∀ i, attempt ≤ i → i < k →
        ∃ ei, op i = Except.error ei ∧ shouldRetry ei = true) →
      withRetryGo op cfg fuel attempt =
        ⟨Except.error e, k + 1 - attempt,
          (List.range (k - attempt)).map (fun j => delayFor cfg (attempt + j))⟩ := by
  intro fuel
  induction fuel with
  | zero =>
    intro attempt k e hfa h1 hak hk _ _ _
    omega
  | succ n ih =>
    intro attempt k e hfa h1 hak hk hop hstop hall
    by_cases heq : attempt = k
    · subst heq
      rw [withRetryGo_error op cfg n attempt e hop]
      have hcond : (!(shouldRetry e) || decide (attempt > cfg.retries)) = true := by
        rcases hstop with hs | hs
        · simp [hs]
        · simp only [Bool.or_eq_true, decide_eq_true_eq]
          right
          omega
      rw [if_pos hcond]
      have h2 : attempt + 1 - attempt = 1 := by omega
      have h3 : attempt - attempt = 0 := by omega
      rw [h2, h3]
      rfl
    · have hlt : attempt < k := Nat.lt_of_le_of_ne hak heq
      obtain ⟨ei, hei, hrei⟩ := hall attempt (Nat.le_refl _) hlt
      rw [withRetryGo_error op cfg n attempt ei hei]
      have hcond : (!(shouldRetry ei) || decide (attempt > cfg.retries)) = false := by
        rw [Bool.or_eq_false_iff]
        constructor
        · rw [hrei]
          rfl
        · rw [decide_eq_false_iff_not]
          omega
      rw [if_neg (by rw [hcond]; exact Bool.false_ne_true)]
      have hrest := ih (attempt + 1) k e (by omega) (by omega) hlt hk hop hstop
        (fun i hi1 hi2 => hall i (by omega) hi2)
      rw [hrest]
      have hnum : k + 1 - (attempt + 1) + 1 = k + 1 - attempt := by omega
      have hlist : delayFor cfg attempt ::
          (List.range (k - (attempt + 1))).map (fun j => delayFor cfg (attempt + 1 + j)) =
          (List.range (k - attempt)).map (fun j => delayFor cfg (attempt + j)) := by
        have hka : k - attempt = (k - (attempt + 1)) + 1 := by omega
        rw [hka, List.range_succ_eq_map, List.map_cons, List.map_map]
        refine congrArg₂ List.cons ?_ (List.map_congr_left ?_)
        · simp
        · intro j _
          simp only [Function.comp_apply]
          congr 1
          omega
      simp only [hnum, hlist]

/-- C9: `withRetry` invokes the operation at most `retries + 1` times; an
error is non-retryable exactly when its message contains `Payment Required`,
`402`, `Unauthorized` or `401`, or its status is 404; and for every run whose
attempts error out — retryably until attempt `k`, which either fails
non-retryably or is the final admissible attempt — the call makes exactly `k`
invocations, sleeps `min(minTimeout * factor^(i-1), maxTimeout)` after each
failed attempt `i < k`, and throws attempt `k`’s error (covering both the
immediate rethrow of non-retryable errors and the final-attempt rethrow of
the last error). -/
theorem withRetry_spec {α : Type} (cfg : RetryConfig)
    (op : Nat → Except JsError α) :
    (withRetry op cfg).attemptsMade ≤ cfg.retries + 1 ∧
    (∀ e : JsError, shouldRetry e = false ↔
      (strContains e.message "Payment Required" = true ∨
       strContains e.message "402" = true ∨
       strContains e.message "Unauthorized" = true ∨
       strContains e.message "401" = true ∨
       e.status = some 404)) ∧
    (∀ k e, 1 ≤ k → k ≤ cfg.retries + 1 → op k = Except.error e →
      (shouldRetry e = false ∨ k = cfg.retries + 1) →
      (∀ i, 1 ≤ i → i < k →
        ∃ ei, op i = Except.error ei ∧ shouldRetry ei = true) →
      withRetry op cfg =
        ⟨Except.error e, k,
          (List.range (k - 1)).map (fun j => delayFor cfg (1 + j))⟩) := by
  refine ⟨withRetryGo_attempts_le op cfg _ _, ?_, ?_⟩
  · intro e
    have hexp : shouldRetry e =
        !(strContains e.message "Payment Required" ||
          strContains e.message "402" ||
          strContains e.message "Unauthorized" ||
          strContains e.message "401" ||
          (e.status == some 404)) := by
      unfold shouldRetry
      cases h1 : strContains e.message "Payment Required" <;>
        cases h2 : strContains e.message "402" <;>
          cases h3 : strContains e.message "Unauthorized" <;>
            cases h4 : strContains e.message "401" <;>
              cases h5 : e.status == some 404 <;> simp
    rw [hexp]
    constructor
    · intro h
      cases hb : (strContains e.message "Payment Required" ||
          strContains e.message "402" ||
          strContains e.message "Unauthorized" ||
          strContains e.message "401" ||
          (e.status == some 404)) with
      | false => rw [hb] at h; exact absurd h (by decide)
      | true =>
        simp only [Bool.or_eq_true] at hb
        rcases hb with (((hA | hB) | hC) | hD) | hE
        · exact Or.inl hA
        · exact Or.inr (Or.inl hB)
        · exact Or.inr (Or.inr (Or.inl hC))
        · exact Or.inr (Or.inr (Or.inr (Or.inl hD)))
        · exact Or.inr (Or.inr (Or.inr (Or.inr (beq_iff_eq.mp hE))))
    · intro h
      have hx : (strContains e.message "Payment Required" ||
          strContains e.message "402" ||
          strContains e.message "Unauthorized" ||
          strContains e.message "401" ||
          (e.status == some 404)) = true := by
        rcases h with h | h | h | h | h <;> simp [h]
      rw [hx]
      rfl
  · intro k e h1 hk hop hstop hall
    have h := withRetryGo_error_char op cfg (cfg.retries + 1) 1 k e
      (by omega) (Nat.le_refl 1) h1 hk hop hstop hall
    unfold withRetry
    rw [h, show k + 1 - 1 = k from by omega]

/-- A non-retryable quota error. -/
def payErr : JsError := { message := "402 Payment Required", status := none }

/-- An operation that always fails with `payErr`. -/
def opPay : Nat → Except JsError Unit := fun _ => Except.error payErr

/-- C9 witness: `withRetry_spec` at the default configuration and an
operation failing with a payment-required error: the error is classified
non-retryable and is rethrown after a single attempt with no sleeps. -/
theorem withRetry_spec_witness :
    shouldRetry payErr = false ∧
    withRetry opPay {} = ⟨Except.error payErr, 1, []⟩ := by
  refine ⟨by decide, ?_⟩
  have h := (withRetry_spec {} opPay).2.2 1 payErr (Nat.le_refl 1) (by decide)
    rfl (Or.inl (by decide))
    (fun i hi1 hi2 => absurd hi2 (by omega))
  simpa using h

end KG
